import Mathlib

/-!
Verification of the core logic of the `are-we-there-yet` Raycast menu-bar
extension (`src/index.tsx`): the progress-history sampler, the two-point
linear completion estimator, the persistence round-trip, and the duration
formatter.  JavaScript numbers are modelled as rationals (`ℚ`), so all
arithmetic is the exact arithmetic the source performs on its (small)
inputs; JavaScript `%` is modelled as the truncated remainder it computes
on finite numbers.
-/

/-- A single progress sample, mirroring `interface HistoryItem` in
`src/index.tsx`: a `timestamp` (milliseconds since epoch, from
`new Date(data.last_updated).getTime()`) and a `percent`
(`data.migration_data.percent_completed`). -/
structure HistoryItem where
  timestamp : ℚ
  percent : ℚ
deriving DecidableEq, Repr, Inhabited

/-- The derived estimate returned by the `estimate` memo in `src/index.tsx`:
`remainingMs` and the completion instant `completionDate`
(`new Date(last.timestamp + remainingMs)` is modelled by the instant's
numeric value `last.timestamp + remainingMs`). -/
structure Estimate where
  remainingMs : ℚ
  completionDate : ℚ
deriving DecidableEq, Repr

/-- The `estimate` memo of `src/index.tsx` (lines 85-104), translated
clause by clause:
if `history.length < 2` return `null`; otherwise take
`first = history[0]`, `last = history[history.length - 1]` (total on
histories of length ≥ 2, here read through `head?`/`getLast?`), compute
`timeDiff`, `percentDiff`, return `null` when
`percentDiff <= 0 || timeDiff <= 0`, else return the two-point linear
extrapolation. -/
def estimate (history : List HistoryItem) : Option Estimate :=
  if history.length < 2 then none
  else
    match history.head?, history.getLast? with
    | some first, some last =>
      let timeDiff := last.timestamp - first.timestamp
      let percentDiff := last.percent - first.percent
      if percentDiff ≤ 0 ∨ timeDiff ≤ 0 then none
      else
        let msPerPercent := timeDiff / percentDiff
        let remainingPercent := 100 - last.percent
        let remainingMs := remainingPercent * msPerPercent
        some { remainingMs := remainingMs
               completionDate := last.timestamp + remainingMs }
    | _, _ => none

/-- Modelled from the spec: the persistent key-value store (Raycast
`Cache`) and JSON text are external collaborators; the spec only requires
an implementation-defined serialization that round-trips exactly.  We
model the serialized form at the level of abstract JSON values (the value
`JSON.stringify` prints and `JSON.parse` recovers), not character
strings. -/
inductive Json where
  | num (q : ℚ)
  | str (s : String)
  | jbool (b : Bool)
  | null
  | arr (elems : List Json)
  | obj (fields : List (String × Json))

/-- The JSON value `JSON.stringify` produces for one `HistoryItem`
object literal `{ timestamp, percent }`. -/
def encodeItem (it : HistoryItem) : Json :=
  Json.obj [("timestamp", Json.num it.timestamp), ("percent", Json.num it.percent)]

/-- The JSON value `JSON.stringify(history)` produces: an array of
`{ timestamp, percent }` objects. -/
def encodeHistory (h : List HistoryItem) : Json :=
  Json.arr (h.map encodeItem)

/-- Modelled from the spec: reading one parsed JSON element back as a
`HistoryItem` (the typed view of the untyped value `JSON.parse` returns,
as the code assigns it to `HistoryItem[]`). -/
def decodeItem : Json → Option HistoryItem
  | Json.obj fields =>
    match fields.lookup "timestamp", fields.lookup "percent" with
    | some (Json.num t), some (Json.num p) => some ⟨t, p⟩
    | _, _ => none
  | _ => none

/-- Decode a list of parsed JSON elements into history items; fails if
any element is not a `{ timestamp, percent }` object. -/
def decodeItems : List Json → Option (List HistoryItem)
  | [] => some []
  | j :: rest =>
    match decodeItem j, decodeItems rest with
    | some it, some l => some (it :: l)
    | _, _ => none

/-- Decode a parsed JSON value into a history; fails if the value is not
an array of `{ timestamp, percent }` objects. -/
def decodeHistory : Json → Option (List HistoryItem)
  | Json.arr l => decodeItems l
  | _ => none

/-- Modelled from the spec: the state of the `migration_history` cache
key.  `none` is a missing key; `malformed` is stored text that is not
valid JSON (so `JSON.parse` throws); `json j` is stored text whose parse
yields the JSON value `j`. -/
inductive CacheContent where
  | json (j : Json)
  | malformed

/-- The persisted state of the single cache key. -/
def Cached : Type := Option CacheContent

/-- The write `cache.set("migration_history", JSON.stringify(h))`
performed by the sampler (line 80 of `src/index.tsx`). -/
def persistCache (h : List HistoryItem) : Cached :=
  some (CacheContent.json (encodeHistory h))

/-- The startup load effect of `src/index.tsx` (lines 46-55): `history`
starts as `[]`; if the key is present, `JSON.parse` is attempted — on a
parse error the exception is caught and logged, leaving `history` empty;
on success the parsed value is used as the history (read through its
typed decoding; an undecodable shape is outside the typed model and
falls back to the initial empty state). -/
def load : Cached → List HistoryItem
  | none => []
  | some CacheContent.malformed => []
  | some (CacheContent.json j) => (decodeHistory j).getD []

/-- The history-updating effect of `src/index.tsx` (lines 63-82), the
spec's `record`: given the previous history and the new observation
(`timestamp`, `currentPercent`), return the new history together with the
cache write it performs (`none` when no `cache.set` call happens).
`prev[prev.length - 1]` is `getLast?`; when it exists, a strictly lower
percent resets the history to the single new item (and persists it), an
equal percent returns `prev` unchanged with no write, and otherwise (as
when `prev` is empty) the new item is appended and persisted. -/
def record (prev : List HistoryItem) (timestamp currentPercent : ℚ) :
    List HistoryItem × Option Json :=
  match prev.getLast? with
  | some lastItem =>
    if currentPercent < lastItem.percent then
      let newHistory := [⟨timestamp, currentPercent⟩]
      (newHistory, some (encodeHistory newHistory))
    else if lastItem.percent = currentPercent then
      (prev, none)
    else
      let newHistory := prev ++ [⟨timestamp, currentPercent⟩]
      (newHistory, some (encodeHistory newHistory))
  | none =>
    let newHistory := prev ++ [⟨timestamp, currentPercent⟩]
    (newHistory, some (encodeHistory newHistory))

/-- The history obtained by feeding a sequence of polls
(`(timestamp, percent)` pairs) through `record`, starting from the empty
history — the reachable states of the sampler. -/
def applyPolls (polls : List (ℚ × ℚ)) : List HistoryItem :=
  polls.foldl (fun h q => (record h q.1 q.2).1) []

/-- JavaScript truncation toward zero (what `a % b` divides by). -/
def jsTrunc (q : ℚ) : ℤ :=
  if 0 ≤ q then ⌊q⌋ else ⌈q⌉

/-- JavaScript `%` on finite numbers: `a - b * trunc(a / b)`. -/
def jsRem (a b : ℚ) : ℚ :=
  a - b * jsTrunc (a / b)

/-- The `formatDuration` function of `src/index.tsx` (lines 258-272),
translated clause by clause: negative input yields `"Unknown"`;
otherwise `minutes = Math.floor((ms / 60000) % 60)`,
`hours = Math.floor((ms / 3600000) % 24)`,
`days = Math.floor(ms / 86400000)`; nonzero components are pushed as
parts, an empty parts list yields `"< 1m"`, else the parts are joined
with a space. -/
def formatDuration (ms : ℚ) : String :=
  if ms < 0 then "Unknown"
  else
    let minutes : ℤ := ⌊jsRem (ms / (1000 * 60)) 60⌋
    let hours : ℤ := ⌊jsRem (ms / (1000 * 60 * 60)) 24⌋
    let days : ℤ := ⌊ms / (1000 * 60 * 60 * 24)⌋
    let parts : List String :=
      (if 0 < days then [toString days ++ "d"] else []) ++
      (if 0 < hours then [toString hours ++ "h"] else []) ++
      (if 0 < minutes then [toString minutes ++ "m"] else [])
    if parts.length = 0 then "< 1m"
    else " ".intercalate parts

/-! Helper lemmas about `record`: one lemma per branch of the source's
conditional. -/

/-- Branch `currentPercent < lastItem.percent` of `record`: reset to a
single-element history and persist it. -/
theorem record_of_last_lt (prev : List HistoryItem) (l : HistoryItem) (t p : ℚ)
    (hl : prev.getLast? = some l) (hp : p < l.percent) :
    record prev t p = ([⟨t, p⟩], some (encodeHistory [⟨t, p⟩])) := by
  unfold record
  rw [hl]
  simp [hp]

/-- Branch `lastItem.percent === currentPercent` of `record`: return the
previous history with no cache write. -/
theorem record_of_last_eq (prev : List HistoryItem) (l : HistoryItem) (t p : ℚ)
    (hl : prev.getLast? = some l) (hp : l.percent = p) :
    record prev t p = (prev, none) := by
  unfold record
  rw [hl]
  subst hp
  simp

/-- Fall-through branch of `record` when the last percent is strictly
smaller: append the new observation and persist. -/
theorem record_of_last_gt (prev : List HistoryItem) (l : HistoryItem) (t p : ℚ)
    (hl : prev.getLast? = some l) (hp : l.percent < p) :
    record prev t p =
      (prev ++ [⟨t, p⟩], some (encodeHistory (prev ++ [⟨t, p⟩]))) := by
  unfold record
  rw [hl]
  simp [lt_asymm hp, ne_of_lt hp]

/-- Branch of `record` on an empty previous history (`lastItem` falsy):
append the new observation and persist. -/
theorem record_of_empty (t p : ℚ) :
    record [] t p = ([⟨t, p⟩], some (encodeHistory [⟨t, p⟩])) := rfl

/-- Decoding inverts encoding on each item list. -/
theorem decodeItems_map_encodeItem (h : List HistoryItem) :
    decodeItems (h.map encodeItem) = some h := by
  induction h with
  | nil => rfl
  | cons x xs ih =>
    have hx : decodeItem (encodeItem x) = some x := rfl
    rw [List.map_cons]
    unfold decodeItems
    rw [hx, ih]

/-- Decoding inverts encoding on whole histories. -/
theorem decodeHistory_encodeHistory (h : List HistoryItem) :
    decodeHistory (encodeHistory h) = some h := by
  unfold decodeHistory encodeHistory
  exact decodeItems_map_encodeItem h

/-- C2: for every non-empty History, a `record` call with a
`current_percent` strictly below the last recorded percent yields exactly
the single-element history holding the new observation, and that
single-element history is what gets persisted. -/
theorem record_percent_drop_resets (prev : List HistoryItem) (l : HistoryItem)
    (t p : ℚ) (hl : prev.getLast? = some l) (hp : p < l.percent) :
    (record prev t p).1 = [⟨t, p⟩] ∧
      (record prev t p).2 = some (encodeHistory [⟨t, p⟩]) := by
  rw [record_of_last_lt prev l t p hl hp]
  exact ⟨rfl, rfl⟩

/-- Witness for C2 at `prev = [(0, 10)]`, new observation `(5, 3)`. -/
theorem record_percent_drop_resets_witness :
    (record [⟨0, 10⟩] 5 3).1 = [⟨5, 3⟩] ∧
      (record [⟨0, 10⟩] 5 3).2 = some (encodeHistory [⟨5, 3⟩]) :=
  record_percent_drop_resets [⟨0, 10⟩] ⟨0, 10⟩ 5 3 rfl (by decide)

/-- C4: for every non-empty History, a `record` call with a
`current_percent` equal to the last recorded percent returns the history
unchanged and performs no cache write, whatever the new timestamp is. -/
theorem record_equal_percent_noop (prev : List HistoryItem) (l : HistoryItem)
    (t p : ℚ) (hl : prev.getLast? = some l) (hp : l.percent = p) :
    record prev t p = (prev, none) :=
  record_of_last_eq prev l t p hl hp

/-- Witness for C4 at `prev = [(0, 10)]`, new observation `(99, 10)`. -/
theorem record_equal_percent_noop_witness :
    record [⟨0, 10⟩] 99 10 = ([⟨0, 10⟩], none) :=
  record_equal_percent_noop [⟨0, 10⟩] ⟨0, 10⟩ 99 10 rfl rfl

/-- C7: persisting any History and loading it back yields the same
sequence of observations. -/
theorem load_persistCache_roundtrip (h : List HistoryItem) :
    load (persistCache h) = h := by
  show (decodeHistory (encodeHistory h)).getD [] = h
  rw [decodeHistory_encodeHistory]
  rfl

/-- C8: on a missing cache key or on persisted contents that fail to
parse as JSON, `load` yields the empty History (the total function
`load` models the never-raising catch-and-log path). -/
theorem load_missing_or_malformed_empty :
    load none = [] ∧ load (some CacheContent.malformed) = [] :=
  ⟨rfl, rfl⟩

/-- One `record` step preserves strict increase of `percent` along the
history. -/
theorem record_preserves_chain (h : List HistoryItem) (t p : ℚ)
    (hc : List.Chain' (fun a b => a.percent < b.percent) h) :
    List.Chain' (fun a b => a.percent < b.percent) ((record h t p).1) := by
  cases e : h.getLast? with
  | none =>
    have he : h = [] := List.getLast?_eq_none_iff.mp e
    subst he
    rw [record_of_empty]
    exact List.chain'_singleton _
  | some l =>
    rcases lt_trichotomy p l.percent with hlt | heq | hgt
    · rw [record_of_last_lt h l t p e hlt]
      exact List.chain'_singleton _
    · rw [record_of_last_eq h l t p e heq.symm]
      exact hc
    · rw [record_of_last_gt h l t p e hgt]
      rw [List.chain'_append]
      refine ⟨hc, List.chain'_singleton _, ?_⟩
      intro x hx y hy
      rw [e, Option.mem_some_iff] at hx
      simp only [List.head?_cons, Option.mem_some_iff] at hy
      subst hx
      subst hy
      exact hgt

/-- Folding `record` over any poll sequence from a strictly-increasing
history keeps the history strictly increasing. -/
theorem foldl_record_preserves_chain (polls : List (ℚ × ℚ))
    (h : List HistoryItem)
    (hc : List.Chain' (fun a b => a.percent < b.percent) h) :
    List.Chain' (fun a b => a.percent < b.percent)
      (polls.foldl (fun h q => (record h q.1 q.2).1) h) := by
  induction polls generalizing h with
  | nil => exact hc
  | cons q rest ih =>
    rw [List.foldl_cons]
    exact ih _ (record_preserves_chain h q.1 q.2 hc)

/-- C5: every reachable History has strictly increasing percents across
consecutive samples (hence non-decreasing and with no two consecutive
equal percents), and `record` preserves that invariant from any history
satisfying it. -/
theorem history_percent_strictly_increasing :
    (∀ (h : List HistoryItem) (t p : ℚ),
        List.Chain' (fun a b => a.percent < b.percent) h →
        List.Chain' (fun a b => a.percent < b.percent) ((record h t p).1)) ∧
    (∀ polls : List (ℚ × ℚ),
        List.Chain' (fun a b => a.percent < b.percent) (applyPolls polls) ∧
        List.Chain' (fun a b => a.percent ≤ b.percent) (applyPolls polls) ∧
        List.Chain' (fun a b => a.percent ≠ b.percent) (applyPolls polls)) := by
  constructor
  · exact record_preserves_chain
  · intro polls
    have hstrict : List.Chain' (fun a b => a.percent < b.percent) (applyPolls polls) :=
      foldl_record_preserves_chain polls [] List.chain'_nil
    exact ⟨hstrict, hstrict.imp fun a b hab => le_of_lt hab,
      hstrict.imp fun a b hab => ne_of_lt hab⟩

/-- Witness for C5: the invariant-preservation half applied to the empty
history and one observation. -/
theorem history_percent_strictly_increasing_witness :
    List.Chain' (fun a b : HistoryItem => a.percent < b.percent)
      ((record [] 0 5).1) :=
  history_percent_strictly_increasing.1 [] 0 5 List.chain'_nil

/-- Folding `record` over polls with strictly increasing percents, from
a history whose last percent (if any) is below the first poll's percent,
appends one sample per poll. -/
theorem foldl_record_length (polls : List (ℚ × ℚ)) (h : List HistoryItem)
    (hchain : List.Chain' (fun a b => a.2 < b.2) polls)
    (hpre : ∀ l, h.getLast? = some l → ∀ q, polls.head? = some q →
      l.percent < q.2) :
    (polls.foldl (fun h q => (record h q.1 q.2).1) h).length =
      h.length + polls.length := by
  induction polls generalizing h with
  | nil => simp
  | cons q rest ih =>
    rw [List.foldl_cons]
    have hchain' := (List.chain'_cons'.mp hchain).2
    have hhead := (List.chain'_cons'.mp hchain).1
    have hstep : (record h q.1 q.2).1 = h ++ [⟨q.1, q.2⟩] := by
      cases e : h.getLast? with
      | none =>
        have he : h = [] := List.getLast?_eq_none_iff.mp e
        subst he
        rfl
      | some l =>
        have hlt : l.percent < q.2 := hpre l e q rfl
        rw [record_of_last_gt h l q.1 q.2 e hlt]
    have hrec := ih (h ++ [⟨q.1, q.2⟩]) hchain' (by
      intro l hl q' hq'
      rw [List.getLast?_concat, Option.some.injEq] at hl
      subst hl
      exact hhead q' (by rw [hq']; rfl))
    rw [hstep, hrec]
    simp only [List.length_append, List.length_cons, List.length_nil]
    omega

/-- C6: feeding any poll sequence with strictly increasing percents and
increasing timestamps through `record` from the empty history yields a
history with one sample per poll (with strictly increasing percents
every poll has a distinct percent, and a consecutive duplicate percent
would add no sample). -/
theorem applyPolls_length_eq_poll_count (polls : List (ℚ × ℚ))
    (hpercent : List.Chain' (fun a b => a.2 < b.2) polls)
    (htime : List.Chain' (fun a b => a.1 < b.1) polls) :
    (applyPolls polls).length = polls.length := by
  have := foldl_record_length polls [] hpercent (fun l hl => by cases hl)
  simpa [applyPolls] using this

/-- Witness for C6 at the two-poll sequence `[(0, 10), (600, 20)]`. -/
theorem applyPolls_length_eq_poll_count_witness :
    (applyPolls [(0, 10), (600, 20)]).length = 2 :=
  applyPolls_length_eq_poll_count [(0, 10), (600, 20)]
    (by norm_num [List.chain'_cons]) (by norm_num [List.chain'_cons])

/-- When the endpoints of a history of length ≥ 2 show strictly
positive percent and time progress, `estimate` returns exactly the
two-point linear extrapolation computed from those endpoints. -/
theorem estimate_eq_of_endpoints (h : List HistoryItem) (f l : HistoryItem)
    (hf : h.head? = some f) (hl : h.getLast? = some l) (hlen : 2 ≤ h.length)
    (hp : f.percent < l.percent) (ht : f.timestamp < l.timestamp) :
    estimate h = some
      ⟨(100 - l.percent) * ((l.timestamp - f.timestamp) / (l.percent - f.percent)),
        l.timestamp +
          (100 - l.percent) * ((l.timestamp - f.timestamp) / (l.percent - f.percent))⟩ := by
  unfold estimate
  rw [if_neg (not_lt.mpr hlen), hf, hl]
  show (if l.percent - f.percent ≤ 0 ∨ l.timestamp - f.timestamp ≤ 0 then none
    else some
      (⟨(100 - l.percent) * ((l.timestamp - f.timestamp) / (l.percent - f.percent)),
        l.timestamp +
          (100 - l.percent) * ((l.timestamp - f.timestamp) / (l.percent - f.percent))⟩ :
        Estimate)) = some
      (⟨(100 - l.percent) * ((l.timestamp - f.timestamp) / (l.percent - f.percent)),
        l.timestamp +
          (100 - l.percent) * ((l.timestamp - f.timestamp) / (l.percent - f.percent))⟩ :
        Estimate)
  rw [if_neg (by push_neg; exact ⟨by linarith, by linarith⟩)]

/-- Inversion of `estimate`: a returned estimate comes from endpoints
with strictly positive percent and time deltas, and its fields satisfy
the source's formulas. -/
theorem estimate_some_inv (h : List HistoryItem) (e : Estimate)
    (he : estimate h = some e) :
    ∃ f l, h.head? = some f ∧ h.getLast? = some l ∧
      0 < l.percent - f.percent ∧ 0 < l.timestamp - f.timestamp ∧
      e.remainingMs =
        (100 - l.percent) * ((l.timestamp - f.timestamp) / (l.percent - f.percent)) ∧
      e.completionDate = l.timestamp + e.remainingMs := by
  match h with
  | [] => simp [estimate] at he
  | [a] => simp [estimate] at he
  | a :: b :: t =>
    obtain ⟨l, hl⟩ : ∃ l, (a :: b :: t).getLast? = some l :=
      ⟨(a :: b :: t).getLast (by simp), List.getLast?_eq_getLast _ (by simp)⟩
    unfold estimate at he
    rw [if_neg (by simp [List.length_cons]),
      show (a :: b :: t).head? = some a from rfl, hl] at he
    have he' : (if l.percent - a.percent ≤ 0 ∨ l.timestamp - a.timestamp ≤ 0 then none
      else some
        (⟨(100 - l.percent) * ((l.timestamp - a.timestamp) / (l.percent - a.percent)),
          l.timestamp +
            (100 - l.percent) * ((l.timestamp - a.timestamp) / (l.percent - a.percent))⟩ :
          Estimate)) = some e := he
    by_cases hc : l.percent - a.percent ≤ 0 ∨ l.timestamp - a.timestamp ≤ 0
    · rw [if_pos hc] at he'
      exact absurd he' (by simp)
    · rw [if_neg hc] at he'
      push_neg at hc
      obtain ⟨hp, ht⟩ := hc
      injection he' with hv
      subst hv
      exact ⟨a, l, rfl, hl, by linarith, by linarith, rfl, rfl⟩

/-- C1: `estimate` on any history of length ≥ 2 with strictly positive
endpoint deltas returns exactly the first-vs-last linear extrapolation;
consequently two histories with the same endpoints get the same
estimate, whatever their intermediate samples are; and on the history
`[(t0, 10), (t0 + 600, 20)]` the rate is `60` time units per percent,
`remainingMs = 4800`, and `completionDate = (t0 + 600) + 4800`. -/
theorem estimate_two_point_extrapolation :
    (∀ (h : List HistoryItem) (f l : HistoryItem),
        h.head? = some f → h.getLast? = some l → 2 ≤ h.length →
        0 < l.percent - f.percent → 0 < l.timestamp - f.timestamp →
        estimate h = some
          ⟨(100 - l.percent) * ((l.timestamp - f.timestamp) / (l.percent - f.percent)),
            l.timestamp +
              (100 - l.percent) *
                ((l.timestamp - f.timestamp) / (l.percent - f.percent))⟩) ∧
    (∀ (h₁ h₂ : List HistoryItem) (f l : HistoryItem),
        h₁.head? = some f → h₁.getLast? = some l →
        h₂.head? = some f → h₂.getLast? = some l →
        2 ≤ h₁.length → 2 ≤ h₂.length →
        0 < l.percent - f.percent → 0 < l.timestamp - f.timestamp →
        estimate h₁ = estimate h₂) ∧
    (∀ t0 : ℚ, ((t0 + 600) - t0) / (20 - 10) = 60 ∧
        estimate [⟨t0, 10⟩, ⟨t0 + 600, 20⟩] = some ⟨4800, (t0 + 600) + 4800⟩) := by
  refine ⟨?_, ?_, ?_⟩
  · intro h f l hf hl hlen hp ht
    exact estimate_eq_of_endpoints h f l hf hl hlen (by linarith) (by linarith)
  · intro h₁ h₂ f l hf₁ hl₁ hf₂ hl₂ hlen₁ hlen₂ hp ht
    rw [estimate_eq_of_endpoints h₁ f l hf₁ hl₁ hlen₁ (by linarith) (by linarith),
      estimate_eq_of_endpoints h₂ f l hf₂ hl₂ hlen₂ (by linarith) (by linarith)]
  · intro t0
    constructor
    · rw [show (t0 + 600) - t0 = 600 by ring]
      norm_num
    · rw [estimate_eq_of_endpoints [⟨t0, 10⟩, ⟨t0 + 600, 20⟩] ⟨t0, 10⟩ ⟨t0 + 600, 20⟩
        rfl (by simp [List.getLast?]) (by simp) (by norm_num) (by norm_num)]
      rw [show (t0 + 600) - t0 = 600 by ring]
      norm_num

/-- Witness for C1: the two-sample history starting at `t0 = 0`. -/
theorem estimate_two_point_extrapolation_witness :
    ((0 : ℚ) + 600 - 0) / (20 - 10) = 60 ∧
      estimate [⟨0, 10⟩, ⟨(0 : ℚ) + 600, 20⟩] = some ⟨4800, ((0 : ℚ) + 600) + 4800⟩ :=
  estimate_two_point_extrapolation.2.2 0

/-- C3: `estimate` returns no result exactly when the history is shorter
than two samples, or the endpoint percent delta is ≤ 0, or the endpoint
time delta is ≤ 0; in every other case it returns a result (the total
Lean function models the never-throwing source computation). -/
theorem estimate_none_characterization :
    ∀ h : List HistoryItem,
      (estimate h = none ↔
        h.length < 2 ∨ h.getLastI.percent - h.headI.percent ≤ 0 ∨
          h.getLastI.timestamp - h.headI.timestamp ≤ 0) ∧
      ((estimate h).isSome = true ↔
        ¬(h.length < 2 ∨ h.getLastI.percent - h.headI.percent ≤ 0 ∨
          h.getLastI.timestamp - h.headI.timestamp ≤ 0)) := by
  have main : ∀ h : List HistoryItem, estimate h = none ↔
      h.length < 2 ∨ h.getLastI.percent - h.headI.percent ≤ 0 ∨
        h.getLastI.timestamp - h.headI.timestamp ≤ 0 := by
    intro h
    match h with
    | [] => simp [estimate]
    | [a] => simp [estimate]
    | a :: b :: t =>
      have hlen : ¬ (a :: b :: t).length < 2 := by simp [List.length_cons]
      obtain ⟨l, hl⟩ : ∃ l, (a :: b :: t).getLast? = some l :=
        ⟨(a :: b :: t).getLast (by simp), List.getLast?_eq_getLast _ (by simp)⟩
      have hlastI : (a :: b :: t).getLastI = l := by
        rw [List.getLastI_eq_getLast?, hl]
      unfold estimate
      rw [if_neg hlen, show (a :: b :: t).head? = some a from rfl, hl, hlastI]
      rw [show (a :: b :: t).headI = a from rfl]
      simp only [hlen, false_or]
      show (if l.percent - a.percent ≤ 0 ∨ l.timestamp - a.timestamp ≤ 0 then none
        else some
          (⟨(100 - l.percent) * ((l.timestamp - a.timestamp) / (l.percent - a.percent)),
            l.timestamp +
              (100 - l.percent) * ((l.timestamp - a.timestamp) / (l.percent - a.percent))⟩ :
            Estimate)) = none ↔
        l.percent - a.percent ≤ 0 ∨ l.timestamp - a.timestamp ≤ 0
      by_cases hc : l.percent - a.percent ≤ 0 ∨ l.timestamp - a.timestamp ≤ 0
      · rw [if_pos hc]
        exact ⟨fun _ => hc, fun _ => rfl⟩
      · rw [if_neg hc]
        push_neg at hc
        constructor
        · intro hsome
          exact absurd hsome (Option.some_ne_none _)
        · intro hdisj
          rcases hdisj with hd | hd
          · exact absurd hd (not_le.mpr hc.1)
          · exact absurd hd (not_le.mpr hc.2)
  intro h
  refine ⟨main h, ?_⟩
  rw [Option.isSome_iff_ne_none, ne_eq]
  exact not_congr (main h)

/-- Witness for C3: the empty history has no estimate. -/
theorem estimate_none_characterization_witness :
    estimate [] = none :=
  ((estimate_none_characterization []).1).mpr (Or.inl (by decide))

/-- A string containing a given character differs from any string not
containing it. -/
theorem ne_of_mem_data (s t : String) (c : Char) (hc : c ∈ s.data)
    (hnc : ¬ c ∈ t.data) : s ≠ t := fun h => hnc (h ▸ hc)

/-- A character of the right operand occurs in an appended string. -/
theorem mem_data_right (s t : String) (c : Char) (hc : c ∈ t.data) :
    c ∈ (s ++ t).data := by
  rw [String.data_append]
  exact List.mem_append_right _ hc

/-- The part-joining tail of `formatDuration` never produces
`"Unknown"`: every part ends in `d`, `h` or `m`, characters absent from
`"Unknown"`, and the empty-parts branch produces `"< 1m"`. -/
theorem parts_ne_unknown (dd hh mm : ℤ) :
    (if (((if 0 < dd then [toString dd ++ "d"] else []) ++
          (if 0 < hh then [toString hh ++ "h"] else []) ++
          (if 0 < mm then [toString mm ++ "m"] else [])).length = 0)
     then "< 1m"
     else " ".intercalate
       ((if 0 < dd then [toString dd ++ "d"] else []) ++
        (if 0 < hh then [toString hh ++ "h"] else []) ++
        (if 0 < mm then [toString mm ++ "m"] else []))) ≠ "Unknown" := by
  by_cases hd : 0 < dd <;> by_cases hh2 : 0 < hh <;> by_cases hm : 0 < mm <;>
    simp [hd, hh2, hm, String.intercalate, String.intercalate.go] <;>
    first
    | exact ne_of_mem_data _ _ 'm'
        (mem_data_right _ _ _ (mem_data_right _ _ _ (by decide))) (by decide)
    | exact ne_of_mem_data _ _ 'h'
        (mem_data_right _ _ _ (mem_data_right _ _ _ (by decide))) (by decide)
    | exact ne_of_mem_data _ _ 'm' (mem_data_right _ _ _ (by decide)) (by decide)
    | exact ne_of_mem_data _ _ 'h' (mem_data_right _ _ _ (by decide)) (by decide)
    | exact ne_of_mem_data _ _ 'd' (mem_data_right _ _ _ (by decide)) (by decide)

/-- On non-negative input, `formatDuration` never returns `"Unknown"`. -/
theorem formatDuration_ne_unknown (ms : ℚ) (h0 : 0 ≤ ms) :
    formatDuration ms ≠ "Unknown" := by
  unfold formatDuration
  rw [if_neg (not_lt.mpr h0)]
  exact parts_ne_unknown ⌊ms / (1000 * 60 * 60 * 24)⌋
    ⌊jsRem (ms / (1000 * 60 * 60)) 24⌋ ⌊jsRem (ms / (1000 * 60)) 60⌋

/-- C10: whenever `estimate` returns a result and the last sample's
percent is at most 100, the remaining duration is non-negative and the
completion instant is not before the last sample's timestamp; hence the
guard `ms < 0` of `formatDuration` is false on that result, so its
`"Unknown"` branch is unreachable and the formatted remaining time is
never `"Unknown"`. -/
theorem estimate_result_nonneg :
    ∀ (h : List HistoryItem) (e : Estimate) (l : HistoryItem),
      estimate h = some e → h.getLast? = some l → l.percent ≤ 100 →
      0 ≤ e.remainingMs ∧ l.timestamp ≤ e.completionDate ∧
        ¬ e.remainingMs < 0 ∧ formatDuration e.remainingMs ≠ "Unknown" := by
  intro h e l he hl hle
  obtain ⟨f, l', hf, hl', hp, ht, hrm, hcd⟩ := estimate_some_inv h e he
  rw [hl] at hl'
  injection hl' with hll
  subst hll
  have hdiv : 0 ≤ (l.timestamp - f.timestamp) / (l.percent - f.percent) :=
    div_nonneg (le_of_lt ht) (le_of_lt hp)
  have hrm0 : 0 ≤ e.remainingMs := by
    rw [hrm]
    exact mul_nonneg (by linarith) hdiv
  refine ⟨hrm0, ?_, not_lt.mpr hrm0, formatDuration_ne_unknown _ hrm0⟩
  rw [hcd]
  linarith

/-- Witness for C10 at the history `[(0, 10), (600, 20)]`. -/
theorem estimate_result_nonneg_witness :
    0 ≤ (Estimate.mk 4800 5400).remainingMs ∧
      (HistoryItem.mk 600 20).timestamp ≤ (Estimate.mk 4800 5400).completionDate ∧
      ¬ (Estimate.mk 4800 5400).remainingMs < 0 ∧
      formatDuration (Estimate.mk 4800 5400).remainingMs ≠ "Unknown" :=
  estimate_result_nonneg [⟨0, 10⟩, ⟨600, 20⟩] ⟨4800, 5400⟩ ⟨600, 20⟩
    (by norm_num [estimate]) (by simp [List.getLast?]) (by norm_num)

/-- JavaScript `x % b` takes its `Math.floor` to `0` whenever
`0 ≤ x < 1 ≤ b`: the truncated quotient is `0`, so the remainder is `x`
itself, which floors to `0`. -/
theorem floor_jsRem_eq_zero (a b : ℚ) (h0 : 0 ≤ a) (h1 : a < 1) (hb : 1 ≤ b) :
    ⌊jsRem a b⌋ = 0 := by
  have hbpos : (0 : ℚ) < b := by linarith
  have hdiv0 : 0 ≤ a / b := div_nonneg h0 (le_of_lt hbpos)
  have hdiv1 : a / b < 1 := by
    rw [div_lt_one hbpos]
    linarith
  have htr : jsTrunc (a / b) = 0 := by
    unfold jsTrunc
    rw [if_pos hdiv0, Int.floor_eq_zero_iff]
    exact Set.mem_Ico.mpr ⟨hdiv0, hdiv1⟩
  unfold jsRem
  rw [htr]
  norm_num
  exact ⟨h0, h1⟩

/-- On inputs below one minute, all three components of `formatDuration`
are zero, so the parts list is empty and the floor string is returned. -/
theorem formatDuration_sub_minute (ms : ℚ) (h0 : 0 ≤ ms) (h1 : ms < 60000) :
    formatDuration ms = "< 1m" := by
  have hd60 : (0 : ℚ) < 1000 * 60 := by norm_num
  have hd3600 : (0 : ℚ) < 1000 * 60 * 60 := by norm_num
  have hd86400 : (0 : ℚ) < 1000 * 60 * 60 * 24 := by norm_num
  have hmin : ⌊jsRem (ms / (1000 * 60)) 60⌋ = 0 :=
    floor_jsRem_eq_zero _ _ (div_nonneg h0 (le_of_lt hd60))
      (by rw [div_lt_one hd60]; linarith) (by norm_num)
  have hhr : ⌊jsRem (ms / (1000 * 60 * 60)) 24⌋ = 0 :=
    floor_jsRem_eq_zero _ _ (div_nonneg h0 (le_of_lt hd3600))
      (by rw [div_lt_one hd3600]; linarith) (by norm_num)
  have hday : ⌊ms / (1000 * 60 * 60 * 24)⌋ = 0 := by
    rw [Int.floor_eq_zero_iff]
    refine Set.mem_Ico.mpr ⟨div_nonneg h0 (le_of_lt hd86400), ?_⟩
    rw [div_lt_one hd86400]
    linarith
  simp [formatDuration, hmin, hhr, hday, not_lt.mpr h0]

/-- C9: `formatDuration` returns `"Unknown"` on every negative input,
`"< 1m"` on every input in `[0, 60000)` milliseconds, `"1m"` at both
90,000 ms and 61,000 ms, and `"1d 1h"` at 90,000,000 ms — the zero
components (hours and days in the first two, minutes in the last) are
omitted from the output. -/
theorem formatDuration_spec :
    (∀ ms : ℚ, ms < 0 → formatDuration ms = "Unknown") ∧
    (∀ ms : ℚ, 0 ≤ ms → ms < 60000 → formatDuration ms = "< 1m") ∧
    formatDuration 90000 = "1m" ∧ formatDuration 61000 = "1m" ∧
    formatDuration 90000000 = "1d 1h" := by
  refine ⟨?_, formatDuration_sub_minute, ?_, ?_, ?_⟩
  · intro ms h
    unfold formatDuration
    rw [if_pos h]
  · norm_num [formatDuration, jsRem, jsTrunc]
    rfl
  · norm_num [formatDuration, jsRem, jsTrunc]
    rfl
  · norm_num [formatDuration, jsRem, jsTrunc]
    rfl

/-- Witness for C9 at `ms = -1` and `ms = 0`. -/
theorem formatDuration_spec_witness :
    formatDuration (-1) = "Unknown" ∧ formatDuration 0 = "< 1m" :=
  ⟨formatDuration_spec.1 (-1) (by norm_num),
    formatDuration_spec.2.1 0 (le_refl 0) (by norm_num)⟩
